import Mathlib

/-!
Verification of the ZKPAuth repository core: the Schnorr identification
protocol (src/zkpauth/crypto.py, src/zkpauth/auth.py) and the Richens
attestation method (src/zkpauth/richens.py).

Modelling conventions:
* Python arbitrary-precision non-negative integers are modelled as Nat.
  Every integer reaching the modelled code paths is non-negative.
* The group constants P, G, Q, CHALLENGE_BITS, ROUNDS live in
  src/zkpauth/constants.py, which is not part of the sources provided;
  they are modelled from the spec (sections 3 and 4.1) as a parameter
  structure GroupParams with the validity invariant the spec states.
* The stdlib hash primitives hashlib.shake_256(m).digest(96),
  hashlib.blake2b(m, digest_size=32).hexdigest() and str.encode("utf-8")
  are modelled as the fields of a HashModel parameter; they are pure
  functions of their input, which is all the code relies on for the
  algebraic claims.  Collision-freeness of blake2b is modelled, where a
  claim needs it, as an injectivity hypothesis on the model.
* secrets.compare_digest on equal-purpose hex digests is modelled as
  string equality (it is a constant-time equality check).
* Functions that raise (ValueError) are modelled as Except String.
-/

/-- Models the group constants from src/zkpauth/constants.py (file not in
src): prime modulus P, generator G, subgroup order Q, challenge bit width
and round count. Modelled from the spec: section 3 GroupParameters. -/
structure GroupParams where
  P : Nat
  G : Nat
  Q : Nat
  CHALLENGE_BITS : Nat
  ROUNDS : Nat
deriving DecidableEq

/-- Modelled from the spec: the section 4.1 startup validation of the
group parameters, P (probabilistically) prime, G in (1,P), G^Q mod P = 1,
Q prime. -/
def GroupParams.Valid (gp : GroupParams) : Prop :=
  Nat.Prime gp.P ∧ Nat.Prime gp.Q ∧ 1 < gp.G ∧ gp.G < gp.P ∧
    gp.G ^ gp.Q % gp.P = 1

/-- Models the stdlib hash primitives used by src/zkpauth/richens.py:
shake256_96 is hashlib.shake_256(m).digest(96), blake2b32hex is
hashlib.blake2b(m, digest_size=32).hexdigest(), encodeUtf8 is
str.encode("utf-8").  Byte strings are lists of byte values. -/
structure HashModel where
  shake256_96 : List Nat → List Nat
  blake2b32hex : List Nat → String
  encodeUtf8 : String → List Nat

/-- Models Python pow(base, exponent, modulus) for non-negative inputs. -/
def powMod (b e m : Nat) : Nat := b ^ e % m

/-- Fuel-driven computation of the binary bit length; the fuel argument
only forces structural termination and is irrelevant once at least n. -/
def bitLengthCore : Nat → Nat → Nat
  | 0, _ => 0
  | _ + 1, 0 => 0
  | fuel + 1, n + 1 => bitLengthCore fuel ((n + 1) / 2) + 1

/-- Models int.bit_length() for non-negative integers. -/
def bitLength (n : Nat) : Nat := bitLengthCore n n

/-- Big-endian byte string of the given length (most significant first),
the value reduced modulo 256^length. -/
def bytesBE : Nat → Nat → List Nat
  | 0, _ => []
  | n + 1, v => bytesBE n (v / 256) ++ [v % 256]

/-- Models richens._int_to_bytes: value.to_bytes(max(1, ceil(bit_length/8)),
"big"). -/
def int_to_bytes (value : Nat) : List Nat :=
  bytesBE (max 1 ((bitLength value + 7) / 8)) value

/-- Models int.from_bytes(bytes, "big"). -/
def fromBytesBE (l : List Nat) : Nat := l.foldl (fun a b => a * 256 + b) 0

/-- Models richens._derive_coefficients: hash essence concatenated with
the utf-8 encoded context through shake_256, take three 32-byte blocks of
the 96-byte digest, and reduce each block (read big-endian) modulo Q. -/
def derive_coefficients (gp : GroupParams) (H : HashModel)
    (essence : List Nat) (context : String) : Nat × Nat × Nat :=
  let material := essence ++ H.encodeUtf8 context
  let stream := H.shake256_96 material
  (fromBytesBE (stream.take 32) % gp.Q,
   fromBytesBE ((stream.drop 32).take 32) % gp.Q,
   fromBytesBE ((stream.drop 64).take 32) % gp.Q)

/-- Models richens._compute_fingerprint: blake2b (digest size 32) over the
minimal big-endian encoding of each vector component followed by the
utf-8 encoded context; sequential hasher.update calls are concatenation. -/
def compute_fingerprint (H : HashModel) (vector : Nat × Nat × Nat)
    (context : String) : String :=
  H.blake2b32hex (int_to_bytes vector.1 ++ int_to_bytes vector.2.1 ++
    int_to_bytes vector.2.2 ++ H.encodeUtf8 context)

/-- Models richens.RichensCapsule (vector is the Tuple[int, int, int]). -/
structure RichensCapsule where
  vector : Nat × Nat × Nat
  context : String
  anchor : Nat
  fingerprint : String
deriving DecidableEq

/-- Models richens._derive_anchor:
(vector[0]^2 * vector[1]^3 * vector[2]^5) mod P. -/
def derive_anchor (gp : GroupParams) (vector : Nat × Nat × Nat) : Nat :=
  (powMod vector.1 2 gp.P * powMod vector.2.1 3 gp.P *
    powMod vector.2.2 5 gp.P) % gp.P

/-- Models richens.RichensProof. -/
structure RichensProof where
  response : Nat
  orbital : Nat
  parity : String
deriving DecidableEq

/-- Models richens.mint_capsule. -/
def mint_capsule (gp : GroupParams) (H : HashModel) (essence : List Nat)
    (context : String) : RichensCapsule :=
  let coefficients := derive_coefficients gp H essence context
  let vector := (powMod gp.G coefficients.1 gp.P,
    powMod gp.G coefficients.2.1 gp.P, powMod gp.G coefficients.2.2 gp.P)
  { vector := vector, context := context,
    anchor := derive_anchor gp vector,
    fingerprint := compute_fingerprint H vector context }

/-- Models richens.issue_challenge.  The while-True loop draws successive
secrets.randbits(size) values; the draws are modelled as the stream
argument, each draw reduced modulo 2^size exactly as randbits bounds its
output, and the loop returns the first draw in (0, Q).  Returns none when
the finite modelled stream holds no acceptable draw. -/
def issue_challenge (gp : GroupParams) (bits : Nat) (stream : List Nat) :
    Option Nat :=
  let size := min bits (bitLength gp.Q)
  (stream.map (fun r => r % 2 ^ size)).find?
    (fun candidate => decide (0 < candidate ∧ candidate < gp.Q))

/-- Models richens.respond_to_challenge. -/
def respond_to_challenge (gp : GroupParams) (H : HashModel)
    (essence : List Nat) (challenge : Nat) (context : String) :
    RichensProof :=
  let abc := derive_coefficients gp H essence context
  let challenge_mod := challenge % gp.Q
  let polynomial := (abc.1 + abc.2.1 * challenge_mod +
    abc.2.2 * powMod challenge_mod 2 gp.Q) % gp.Q
  let orbital := powMod gp.G polynomial gp.P
  let parity := H.blake2b32hex (int_to_bytes challenge_mod ++
    int_to_bytes orbital ++ H.encodeUtf8 context)
  { response := polynomial, orbital := orbital, parity := parity }

/-- Models richens.verify_attestation; the early returns become nested
conditionals and secrets.compare_digest becomes string equality. -/
def verify_attestation (gp : GroupParams) (H : HashModel)
    (capsule : RichensCapsule) (challenge : Nat) (proof : RichensProof) :
    Bool :=
  if capsule.anchor ≠ derive_anchor gp capsule.vector then false
  else if capsule.fingerprint ≠
      compute_fingerprint H capsule.vector capsule.context then false
  else
    let challenge_mod := challenge % gp.Q
    let expected := powMod capsule.vector.1 1 gp.P
    let expected := expected * powMod capsule.vector.2.1 challenge_mod gp.P % gp.P
    let expected := expected *
      powMod capsule.vector.2.2 (powMod challenge_mod 2 gp.Q) gp.P % gp.P
    if powMod gp.G proof.response gp.P ≠ proof.orbital then false
    else if proof.orbital ≠ expected then false
    else
      let expected_parity := H.blake2b32hex (int_to_bytes challenge_mod ++
        int_to_bytes proof.orbital ++ H.encodeUtf8 capsule.context)
      proof.parity == expected_parity

/-- Models crypto.SchnorrCommitment. -/
structure SchnorrCommitment where
  commitment : Nat
  nonce : Nat
deriving DecidableEq

/-- Models crypto.SchnorrProof. -/
structure SchnorrProof where
  challenge : Nat
  response : Nat
deriving DecidableEq

/-- Models crypto.SchnorrProver: the held secret after construction. -/
structure SchnorrProver where
  secret : Nat
deriving DecidableEq

/-- Models crypto.SchnorrVerifier: the held public key. -/
structure SchnorrVerifier where
  public_key : Nat
deriving DecidableEq

/-- Models crypto.SchnorrProver.__init__; ValueError becomes an error
value.  Integers are Nat so the Python comparison 0 < secret < Q is the
conjunction below. -/
def SchnorrProver.make (gp : GroupParams) (secret : Nat) :
    Except String SchnorrProver :=
  if ¬ (0 < secret ∧ secret < gp.Q) then
    Except.error "Secret must lie in the multiplicative subgroup"
  else Except.ok { secret := secret }

/-- Models crypto.SchnorrProver.commit; the secrets-drawn random nonce is
passed in explicitly. -/
def SchnorrProver.commit (gp : GroupParams) (_p : SchnorrProver)
    (nonce : Nat) : SchnorrCommitment :=
  { commitment := powMod gp.G nonce gp.P, nonce := nonce }

/-- Models crypto.SchnorrProver.prove; the bound 0 <= challenge holds by
the Nat type. -/
def SchnorrProver.prove (gp : GroupParams) (p : SchnorrProver)
    (challenge : Nat) (commitment : SchnorrCommitment) :
    Except String SchnorrProof :=
  if ¬ (challenge < 2 ^ gp.CHALLENGE_BITS) then
    Except.error "Challenge outside of configured range"
  else
    Except.ok { challenge := challenge
                response := (commitment.nonce + challenge * p.secret) % gp.Q }

/-- Models crypto.SchnorrVerifier.__init__. -/
def SchnorrVerifier.make (gp : GroupParams) (public_key : Nat) :
    Except String SchnorrVerifier :=
  if ¬ (0 < public_key ∧ public_key < gp.P) then
    Except.error "Invalid public key"
  else Except.ok { public_key := public_key }

/-- Models crypto.SchnorrVerifier.verify. -/
def SchnorrVerifier.verify (gp : GroupParams) (v : SchnorrVerifier)
    (commitment_value : Nat) (proof : SchnorrProof) : Bool :=
  powMod gp.G proof.response gp.P ==
    (commitment_value * powMod v.public_key proof.challenge gp.P) % gp.P

/-- Models crypto.derive_public_key. -/
def derive_public_key (gp : GroupParams) (secret : Nat) :
    Except String Nat :=
  if ¬ (0 < secret ∧ secret < gp.Q) then
    Except.error "Secret must lie in the multiplicative subgroup"
  else Except.ok (powMod gp.G secret gp.P)

/-- Models crypto.run_single_round; the random nonce for commit and the
random challenge drawn by the verifier are explicit arguments. -/
def run_single_round (gp : GroupParams)
    (secret public_key nonce challenge : Nat) :
    Except String (Bool × SchnorrProof × Nat) := do
  let prover ← SchnorrProver.make gp secret
  let verifier ← SchnorrVerifier.make gp public_key
  let commitment := prover.commit gp nonce
  let proof ← prover.prove gp challenge commitment
  pure (verifier.verify gp commitment.commitment proof, proof,
    commitment.commitment)

/-- The round loop of auth.authenticate: one run_single_round per draw,
transcripts collected in order. -/
def runRounds (gp : GroupParams) (secret public_key : Nat) :
    List (Nat × Nat) → Except String (List (Bool × SchnorrProof × Nat))
  | [] => Except.ok []
  | d :: rest => do
      let r ← run_single_round gp secret public_key d.1 d.2
      let rs ← runRounds gp secret public_key rest
      pure (r :: rs)

/-- Models the core of auth.authenticate: run ROUNDS rounds (the draws
list carries one (nonce, challenge) pair per round, so draws.length plays
ROUNDS), count the successful rounds, and report success exactly when
that count equals ROUNDS.  The store lookup and hex serialization around
this loop are external plumbing and are not modelled. -/
def authenticate_rounds (gp : GroupParams) (secret public_key : Nat)
    (draws : List (Nat × Nat)) :
    Except String (List (Bool × SchnorrProof × Nat) × Bool) := do
  let results ← runRounds gp secret public_key draws
  pure (results,
    (results.filter (fun r => r.1)).length == draws.length)

/-- The sixteen lowercase hex digit characters, as Python hex() emits. -/
def hexDigitChar (n : Nat) : Char :=
  match n with
  | 0 => '0' | 1 => '1' | 2 => '2' | 3 => '3' | 4 => '4'
  | 5 => '5' | 6 => '6' | 7 => '7' | 8 => '8' | 9 => '9'
  | 10 => 'a' | 11 => 'b' | 12 => 'c' | 13 => 'd' | 14 => 'e' | _ => 'f'

/-- Fuel-driven big-endian hex digit expansion of n (empty for n = 0);
the fuel is irrelevant once at least n. -/
def toHexCore : Nat → Nat → List Char
  | 0, _ => []
  | _ + 1, 0 => []
  | fuel + 1, n + 1 =>
      toHexCore fuel ((n + 1) / 16) ++ [hexDigitChar ((n + 1) % 16)]

/-- The digit part of Python hex(n) (hex(0) = "0x0"). -/
def natToHexDigits (n : Nat) : List Char :=
  if n = 0 then ['0'] else toHexCore n n

/-- Models Python hex(n) for non-negative n. -/
def natToHex (n : Nat) : String :=
  String.mk ('0' :: 'x' :: natToHexDigits n)

/-- Numeric value of one hex digit character, uppercase accepted as by
Python int(s, 16). -/
def hexVal (c : Char) : Option Nat :=
  if 48 ≤ c.toNat ∧ c.toNat ≤ 57 then some (c.toNat - 48)
  else if 97 ≤ c.toNat ∧ c.toNat ≤ 102 then some (c.toNat - 87)
  else if 65 ≤ c.toNat ∧ c.toNat ≤ 70 then some (c.toNat - 55)
  else none

/-- Digit values of a hex digit string, none on any non-digit. -/
def hexValsOf : List Char → Option (List Nat)
  | [] => some []
  | c :: rest =>
      match hexVal c, hexValsOf rest with
      | some v, some vs => some (v :: vs)
      | _, _ => none

/-- Base-16 accumulation of a digit value list onto acc. -/
def foldl16 (acc : Nat) (digits : List Nat) : Nat :=
  digits.foldl (fun a d => 16 * a + d) acc

/-- Models Python int(s, 16) on the string shapes this code meets: an
optional 0x or 0X prefix followed by at least one hex digit.  (Python
also strips whitespace, a sign and underscores; none of those occur in
capsule serialization or its single-digit corruptions.)  Malformed input
gives none, modelling the ValueError / EncodingError. -/
def hexToNat (s : String) : Option Nat :=
  match s.data with
  | '0' :: 'x' :: rest =>
      if rest.isEmpty then none else (hexValsOf rest).map (foldl16 0)
  | '0' :: 'X' :: rest =>
      if rest.isEmpty then none else (hexValsOf rest).map (foldl16 0)
  | [] => none
  | l => (hexValsOf l).map (foldl16 0)

/-- Models the external dict representation of a capsule (spec section 6:
vector is a list of hex strings, anchor a hex string). -/
structure CapsuleDict where
  vector : List String
  context : String
  anchor : String
  fingerprint : String
deriving DecidableEq

/-- Models richens.RichensCapsule.to_dict. -/
def RichensCapsule.to_dict (c : RichensCapsule) : CapsuleDict :=
  { vector := [natToHex c.vector.1, natToHex c.vector.2.1,
      natToHex c.vector.2.2]
    context := c.context
    anchor := natToHex c.anchor
    fingerprint := c.fingerprint }

/-- Models richens.RichensCapsule.from_dict: parse the hex fields, build
the capsule, then reject unless the anchor and fingerprint recomputed
from the supplied vector and context match the supplied fields.  A
malformed hex string or a vector without exactly three entries is the
EncodingError case (the Python code would raise ValueError from int or
IndexError from the anchor recomputation there). -/
def RichensCapsule.from_dict (gp : GroupParams) (H : HashModel)
    (data : CapsuleDict) : Except String RichensCapsule :=
  match data.vector with
  | [h0, h1, h2] =>
      match hexToNat h0, hexToNat h1, hexToNat h2, hexToNat data.anchor with
      | some v0, some v1, some v2, some anchor =>
          let capsule : RichensCapsule :=
            { vector := (v0, v1, v2), context := data.context
              anchor := anchor, fingerprint := data.fingerprint }
          if capsule.anchor ≠ derive_anchor gp capsule.vector then
            Except.error "Capsule anchor mismatch"
          else if capsule.fingerprint ≠
              compute_fingerprint H capsule.vector capsule.context then
            Except.error "Capsule fingerprint mismatch"
          else Except.ok capsule
      | _, _, _, _ => Except.error "EncodingError"
  | _ => Except.error "EncodingError"

/-- Component access of the capsule vector by position (0, 1, 2). -/
def vectorComponent (caps : RichensCapsule) : Nat → Nat
  | 0 => caps.vector.1
  | 1 => caps.vector.2.1
  | _ => caps.vector.2.2

/-- Replace entry i of the serialized vector: models corrupting a single
component hex string of the external capsule representation. -/
def setVectorEntry (d : CapsuleDict) (i : Nat) (s : String) : CapsuleDict :=
  { d with vector := d.vector.set i s }

/-! ### Concrete instances for evaluation

A small valid group (P = 23, Q = 11, G = 2, and 2^11 mod 23 = 1) and an
executable hash model whose digest map is injective, used to evaluate the
theorems on concrete inputs. -/

/-- Concrete valid group parameters: 2 has order 11 modulo 23. -/
def toyGP : GroupParams :=
  { P := 23, G := 2, Q := 11, CHALLENGE_BITS := 4, ROUNDS := 2 }

/-- Prefix-free unary encoding of a list of naturals into characters. -/
def unaryEncode : List Nat → List Char
  | [] => []
  | n :: rest => List.replicate n 'a' ++ 'b' :: unaryEncode rest

/-- Decoder for unaryEncode; the accumulator counts the current run. -/
def unaryDecode : List Char → Nat → List Nat
  | [], _ => []
  | ch :: rest, acc =>
      if ch = 'b' then acc :: unaryDecode rest 0
      else unaryDecode rest (acc + 1)

/-- An executable, injective stand-in digest for evaluations. -/
def toyDigest (l : List Nat) : String := String.mk (unaryEncode l)

/-- An executable, injective stand-in for utf-8 encoding. -/
def toyUtf8 (s : String) : List Nat := s.data.map Char.toNat

/-- An executable stand-in for the 96-byte shake stream. -/
def toyShake (m : List Nat) : List Nat :=
  (List.range 96).map
    (fun i => (3 * i + m.foldl (fun a b => 2 * a + b + 1) 5) % 256)

/-- Executable hash model with an injective digest map. -/
def toyHash : HashModel :=
  { shake256_96 := toyShake
    blake2b32hex := toyDigest
    encodeUtf8 := toyUtf8 }

/-- Value-level mirror of toHexCore. -/
def hexDigitsVals : Nat → Nat → List Nat
  | 0, _ => []
  | _ + 1, 0 => []
  | fuel + 1, n + 1 => hexDigitsVals fuel ((n + 1) / 16) ++ [(n + 1) % 16]

/-! ### Arithmetic toolkit -/

/-- When G has order dividing Q modulo P, exponents may be reduced mod Q. -/
lemma pow_mod_cycle (G Q P x : Nat) (hcyc : G ^ Q % P = 1) :
    G ^ (x % Q) % P = G ^ x % P := by
  conv_rhs => rw [← Nat.div_add_mod x Q, pow_add, pow_mul, Nat.mul_mod,
    Nat.pow_mod, hcyc, one_pow, ← Nat.mul_mod, one_mul]

/-- A product of two residues modulo P is the residue of the product. -/
lemma mod_mul_mod (x y P : Nat) : x % P * (y % P) % P = x * y % P :=
  (Nat.mul_mod x y P).symm

/-- Evaluation of the public commitment vector at the challenge point, as
verify_attestation computes it, equals G to the responder polynomial. -/
lemma expected_eval (G Q P a b c tm s : Nat) (hcyc : G ^ Q % P = 1) :
    powMod (powMod G a P) 1 P * powMod (powMod G b P) tm P % P *
      powMod (powMod G c P) s P % P
    = powMod G ((a + b * tm + c * s) % Q) P := by
  unfold powMod
  rw [pow_mod_cycle G Q P _ hcyc]
  rw [pow_one, Nat.mod_mod_of_dvd (G ^ a) dvd_rfl]
  rw [← Nat.pow_mod (G ^ b) tm P, ← pow_mul G b tm]
  rw [mod_mul_mod (G ^ a) (G ^ (b * tm)) P, ← pow_add G a (b * tm)]
  rw [← Nat.pow_mod (G ^ c) s P, ← pow_mul G c s]
  rw [mod_mul_mod (G ^ (a + b * tm)) (G ^ (c * s)) P,
    ← pow_add G (a + b * tm) (c * s)]

/-! ### Claim theorems (Richens round trip and challenge dependence) -/

/-- C1: For every essence E (non-empty byte string), every context C, and
every challenge t with 0 < t < Q, verifying the response of
respond_to_challenge(E, t, C) against the capsule minted from (E, C) and
the same challenge returns true. -/
theorem C1_round_trip (gp : GroupParams) (H : HashModel) (hgp : gp.Valid)
    (E : List Nat) (hE : E ≠ []) (C : String) (t : Nat)
    (ht0 : 0 < t) (htQ : t < gp.Q) :
    verify_attestation gp H (mint_capsule gp H E C) t
      (respond_to_challenge gp H E t C) = true := by
  obtain ⟨hPp, hQp, hG1, hGP, hcyc⟩ := hgp
  have key := expected_eval gp.G gp.Q gp.P
    (derive_coefficients gp H E C).1 (derive_coefficients gp H E C).2.1
    (derive_coefficients gp H E C).2.2 (t % gp.Q)
    (powMod (t % gp.Q) 2 gp.Q) hcyc
  simp only [verify_attestation, mint_capsule, respond_to_challenge,
    ne_eq, not_true_eq_false, if_false]
  rw [if_neg (not_not_intro key.symm)]
  exact beq_self_eq_true _

/-- C9: respond_to_challenge and verify_attestation depend on the
challenge only through its residue modulo Q: congruent challenges give
identical proofs and identical verification outcomes. -/
theorem C9_challenge_mod_Q (gp : GroupParams) (H : HashModel)
    (A B : Nat) (hAB : A % gp.Q = B % gp.Q) :
    (∀ E C, respond_to_challenge gp H E A C =
      respond_to_challenge gp H E B C) ∧
    (∀ capsule proof, verify_attestation gp H capsule A proof =
      verify_attestation gp H capsule B proof) := by
  constructor
  · intro E C
    unfold respond_to_challenge
    rw [hAB]
  · intro capsule proof
    unfold verify_attestation
    rw [hAB]

/-- C3: SchnorrVerifier.verify accepts exactly when G^response mod P
equals (commitment * public_key^challenge mod P) mod P; it is a total
Boolean function of its inputs, so a mismatch is a false return and
never an exception. -/
theorem C3_schnorr_verify_iff (gp : GroupParams) (v : SchnorrVerifier)
    (commitment : Nat) (proof : SchnorrProof)
    (h0 : 0 < commitment) (hP : commitment < gp.P) :
    SchnorrVerifier.verify gp v commitment proof = true ↔
      gp.G ^ proof.response % gp.P =
        commitment * v.public_key ^ proof.challenge % gp.P % gp.P := by
  have hrhs : commitment * (v.public_key ^ proof.challenge % gp.P) % gp.P
      = commitment * v.public_key ^ proof.challenge % gp.P % gp.P := by
    conv_rhs => rw [Nat.mod_mod_of_dvd _ dvd_rfl,
      Nat.mul_mod commitment (v.public_key ^ proof.challenge) gp.P]
    conv_lhs => rw [Nat.mul_mod commitment
      (v.public_key ^ proof.challenge % gp.P) gp.P,
      Nat.mod_mod_of_dvd (v.public_key ^ proof.challenge) dvd_rfl]
  unfold SchnorrVerifier.verify powMod
  rw [beq_iff_eq, hrhs]

/-- C8: constructing a SchnorrProver succeeds exactly when the secret
lies in (0, Q), and constructing a SchnorrVerifier succeeds exactly when
the public key lies in (0, P); outside those ranges construction is the
synchronous InvalidInput error. -/
theorem C8_constructor_validation (gp : GroupParams) :
    (∀ s, (SchnorrProver.make gp s).isOk = true ↔ 0 < s ∧ s < gp.Q) ∧
    (∀ pk, (SchnorrVerifier.make gp pk).isOk = true ↔
      0 < pk ∧ pk < gp.P) := by
  constructor
  · intro s
    unfold SchnorrProver.make
    split
    · rename_i h
      simp only [Except.isOk, Except.toBool]
      exact Iff.intro (fun hh => by simp at hh) (fun hh => absurd hh (by omega))
    · rename_i h
      simp only [Except.isOk, Except.toBool, true_iff]
      exact not_not.mp h
  · intro pk
    unfold SchnorrVerifier.make
    split
    · rename_i h
      simp only [Except.isOk, Except.toBool]
      exact Iff.intro (fun hh => by simp at hh) (fun hh => absurd hh (by omega))
    · rename_i h
      simp only [Except.isOk, Except.toBool, true_iff]
      exact not_not.mp h

/-- With enough fuel, a value below 2^k has bit length at most k. -/
lemma bitLengthCore_le (fuel : Nat) : ∀ n k, n ≤ fuel → n < 2 ^ k →
    bitLengthCore fuel n ≤ k := by
  induction fuel with
  | zero => intro n k _ _; simp [bitLengthCore]
  | succ fuel ih =>
      intro n k hn hk
      match n with
      | 0 => simp [bitLengthCore]
      | m + 1 =>
          match k with
          | 0 => omega
          | k0 + 1 =>
              have h2 : (2 : Nat) ^ (k0 + 1) = 2 * 2 ^ k0 := by
                rw [pow_succ]; ring
              have hdiv : (m + 1) / 2 < 2 ^ k0 := by omega
              have hfuel : (m + 1) / 2 ≤ fuel := by omega
              have := ih ((m + 1) / 2) k0 hfuel hdiv
              simp only [bitLengthCore]
              omega

/-- A value below 2^k has bit length at most k. -/
lemma bitLength_le_of_lt (x k : Nat) (h : x < 2 ^ k) : bitLength x ≤ k :=
  bitLengthCore_le x x k le_rfl h

/-- C7: every value issue_challenge returns lies strictly between 0 and
Q, and every candidate the loop samples is a randbits(size) draw of at
most min(bits, Q.bit_length()) bits. -/
theorem C7_issue_challenge_range (gp : GroupParams) (bits : Nat)
    (stream : List Nat) (c : Nat)
    (hc : issue_challenge gp bits stream = some c) :
    (0 < c ∧ c < gp.Q) ∧
    ∀ cand ∈ stream.map (fun r => r % 2 ^ min bits (bitLength gp.Q)),
      bitLength cand ≤ min bits (bitLength gp.Q) := by
  constructor
  · have hp := List.find?_some hc
    exact of_decide_eq_true hp
  · intro cand hcand
    obtain ⟨r, _, hr⟩ := List.mem_map.mp hcand
    have hpos : 0 < 2 ^ min bits (bitLength gp.Q) := Nat.pos_pow_of_pos _ (by omega)
    have hlt : cand < 2 ^ min bits (bitLength gp.Q) := by
      rw [← hr]; exact Nat.mod_lt _ hpos
    exact bitLength_le_of_lt _ _ hlt

/-! ### Schnorr round correctness -/

/-- Correctness of one Schnorr response against the verifier equation. -/
lemma schnorr_round_verifies (G Q P nonce ch secret : Nat)
    (hcyc : G ^ Q % P = 1) :
    powMod G ((nonce + ch * secret) % Q) P
      = (powMod G nonce P * powMod (powMod G secret P) ch P) % P := by
  unfold powMod
  rw [pow_mod_cycle G Q P _ hcyc]
  rw [← Nat.pow_mod (G ^ secret) ch P, ← pow_mul G secret ch]
  rw [mod_mul_mod (G ^ nonce) (G ^ (secret * ch)) P,
    ← pow_add G nonce (secret * ch)]
  rw [mul_comm secret ch]

/-- With a prime modulus and a generator below it, a modular power of the
generator is never zero. -/
lemma powMod_pk_pos (gp : GroupParams) (hP : Nat.Prime gp.P)
    (hG0 : 0 < gp.G) (hGP : gp.G < gp.P) (e : Nat) :
    0 < powMod gp.G e gp.P := by
  unfold powMod
  rcases Nat.eq_zero_or_pos (gp.G ^ e % gp.P) with h | h
  · exfalso
    have hdvd : gp.P ∣ gp.G ^ e := Nat.dvd_iff_mod_eq_zero.mpr h
    have hdvdG : gp.P ∣ gp.G := hP.dvd_of_dvd_pow hdvd
    have := Nat.le_of_dvd hG0 hdvdG
    omega
  · exact h

/-- A full Schnorr round for a matching (secret, public key) pair
succeeds and verifies, for any nonce and any in-range challenge. -/
lemma run_single_round_correct (gp : GroupParams)
    (hPp : Nat.Prime gp.P) (hG1 : 1 < gp.G) (hGP : gp.G < gp.P)
    (hcyc : gp.G ^ gp.Q % gp.P = 1)
    (secret nonce challenge : Nat)
    (hs1 : 0 < secret) (hs2 : secret < gp.Q)
    (hch : challenge < 2 ^ gp.CHALLENGE_BITS) :
    run_single_round gp secret (powMod gp.G secret gp.P) nonce challenge =
      Except.ok (true,
        { challenge := challenge
          response := (nonce + challenge * secret) % gp.Q },
        powMod gp.G nonce gp.P) := by
  have hpkpos : 0 < powMod gp.G secret gp.P :=
    powMod_pk_pos gp hPp (by omega) hGP secret
  have hpklt : powMod gp.G secret gp.P < gp.P :=
    Nat.mod_lt _ hPp.pos
  have hmk1 : SchnorrProver.make gp secret = Except.ok ⟨secret⟩ := by
    unfold SchnorrProver.make
    rw [if_neg (not_not_intro ⟨hs1, hs2⟩)]
  have hmk2 : SchnorrVerifier.make gp (powMod gp.G secret gp.P) =
      Except.ok ⟨powMod gp.G secret gp.P⟩ := by
    unfold SchnorrVerifier.make
    rw [if_neg (not_not_intro ⟨hpkpos, hpklt⟩)]
  have hverify : SchnorrVerifier.verify gp ⟨powMod gp.G secret gp.P⟩
      (powMod gp.G nonce gp.P)
      { challenge := challenge
        response := (nonce + challenge * secret) % gp.Q } = true := by
    unfold SchnorrVerifier.verify
    rw [beq_iff_eq]
    exact schnorr_round_verifies gp.G gp.Q gp.P nonce challenge secret hcyc
  unfold run_single_round
  rw [hmk1]
  show (SchnorrVerifier.make gp (powMod gp.G secret gp.P) >>= _) = _
  rw [hmk2]
  show (SchnorrProver.prove gp _ _ _ >>= _) = _
  unfold SchnorrProver.prove
  rw [if_neg (not_not_intro hch)]
  show Except.ok (SchnorrVerifier.verify gp _ _ _, _, _) = _
  simp only [SchnorrProver.commit, hverify]

/-- The round loop for a matching pair succeeds, every round verifies,
and one transcript is produced per draw. -/
lemma runRounds_correct (gp : GroupParams)
    (hPp : Nat.Prime gp.P) (hG1 : 1 < gp.G) (hGP : gp.G < gp.P)
    (hcyc : gp.G ^ gp.Q % gp.P = 1)
    (secret : Nat) (hs1 : 0 < secret) (hs2 : secret < gp.Q) :
    ∀ draws : List (Nat × Nat),
      (∀ d ∈ draws, d.2 < 2 ^ gp.CHALLENGE_BITS) →
      ∃ results,
        runRounds gp secret (powMod gp.G secret gp.P) draws =
          Except.ok results ∧
        (∀ r ∈ results, r.1 = true) ∧ results.length = draws.length := by
  intro draws
  induction draws with
  | nil => intro _; exact ⟨[], rfl, by simp, rfl⟩
  | cons d rest ih =>
      intro hd
      obtain ⟨results, hrun, hall, hlen⟩ :=
        ih (fun x hx => hd x (List.mem_cons_of_mem d hx))
      have hone := run_single_round_correct gp hPp hG1 hGP hcyc
        secret d.1 d.2 hs1 hs2 (hd d (List.mem_cons_self d rest))
      refine ⟨(true,
        { challenge := d.2
          response := (d.1 + d.2 * secret) % gp.Q },
        powMod gp.G d.1 gp.P) :: results, ?_, ?_, ?_⟩
      · show (run_single_round gp secret (powMod gp.G secret gp.P) d.1 d.2
            >>= _) = _
        rw [hone]
        show (runRounds gp secret (powMod gp.G secret gp.P) rest >>= _) = _
        rw [hrun]
        rfl
      · intro r hr
        rcases List.mem_cons.mp hr with h | h
        · rw [h]
        · exact hall r h
      · simp [hlen]

/-- The success count equals the round count exactly when every round
verified. -/
lemma filter_length_eq_iff (results : List (Bool × SchnorrProof × Nat)) :
    ((results.filter (fun r => r.1)).length == results.length) = true ↔
      ∀ r ∈ results, r.1 = true := by
  rw [beq_iff_eq]
  constructor
  · intro h
    have hfil : results.filter (fun r => r.1) = results :=
      List.Sublist.eq_of_length (List.filter_sublist results) h
    intro r hr
    exact List.filter_eq_self.mp hfil r hr
  · intro h
    rw [List.filter_eq_self.mpr h]

/-- C4: running the Schnorr round loop with a correct (secret, public
key) pair makes every round verify true, for any nonce in [1, Q-1] and
any challenge below 2^CHALLENGE_BITS per round, and the aggregate
success flag that authenticate computes is true exactly when every
round verified. -/
theorem C4_authenticate_rounds (gp : GroupParams) (hgp : gp.Valid)
    (secret pk : Nat) (hs1 : 0 < secret) (hs2 : secret < gp.Q)
    (hpk : pk = powMod gp.G secret gp.P)
    (draws : List (Nat × Nat))
    (hd : ∀ d ∈ draws, (0 < d.1 ∧ d.1 < gp.Q) ∧
      d.2 < 2 ^ gp.CHALLENGE_BITS) :
    (∃ results,
      authenticate_rounds gp secret pk draws = Except.ok (results, true) ∧
      ∀ r ∈ results, r.1 = true) ∧
    (∀ results success,
      authenticate_rounds gp secret pk draws =
        Except.ok (results, success) →
      (success = true ↔ ∀ r ∈ results, r.1 = true)) := by
  obtain ⟨hPp, hQp, hG1, hGP, hcyc⟩ := hgp
  obtain ⟨results, hrun, hall, hlen⟩ :=
    runRounds_correct gp hPp hG1 hGP hcyc secret hs1 hs2 draws
      (fun x hx => (hd x hx).2)
  subst hpk
  constructor
  · refine ⟨results, ?_, hall⟩
    unfold authenticate_rounds
    rw [hrun]
    show Except.ok (results, _) = _
    rw [← hlen, (filter_length_eq_iff results).mpr hall]
  · intro results2 success2 heq
    unfold authenticate_rounds at heq
    rw [hrun] at heq
    have heq2 : Except.ok
        ((results, (results.filter (fun r => r.1)).length == draws.length) :
          List (Bool × SchnorrProof × Nat) × Bool) =
        Except.ok (results2, success2) := heq
    have hpair := Except.ok.inj heq2
    have hres : results = results2 := congrArg Prod.fst hpair
    have hsucc : ((results.filter (fun r => r.1)).length ==
        draws.length) = success2 := congrArg Prod.snd hpair
    subst hres
    rw [← hsucc, ← hlen]
    exact filter_length_eq_iff results

/-! ### Byte-encoding and hex-parsing lemmas -/

/-- With enough fuel, every value is below 2 to its computed bit length. -/
lemma lt_two_pow_bitLengthCore (fuel : Nat) : ∀ n, n ≤ fuel →
    n < 2 ^ bitLengthCore fuel n := by
  induction fuel with
  | zero => intro n hn; interval_cases n; simp [bitLengthCore]
  | succ fuel ih =>
      intro n hn
      match n with
      | 0 => simp [bitLengthCore]
      | m + 1 =>
          have hdiv := ih ((m + 1) / 2) (by omega)
          simp only [bitLengthCore, pow_succ]
          omega

/-- Every value is below 2 to its bit length. -/
lemma lt_two_pow_bitLength (n : Nat) : n < 2 ^ bitLength n :=
  lt_two_pow_bitLengthCore n n le_rfl

/-- Reading back a big-endian byte string recovers the value when the
length suffices. -/
lemma fromBytesBE_bytesBE : ∀ len v, v < 256 ^ len →
    fromBytesBE (bytesBE len v) = v := by
  intro len
  induction len with
  | zero => intro v hv; interval_cases v; rfl
  | succ len ih =>
      intro v hv
      show fromBytesBE (bytesBE len (v / 256) ++ [v % 256]) = v
      unfold fromBytesBE
      rw [List.foldl_append]
      have hrec : List.foldl (fun a b => a * 256 + b) 0
          (bytesBE len (v / 256)) = v / 256 := by
        apply ih
        have h256 : (256 : Nat) ^ (len + 1) = 256 ^ len * 256 := pow_succ 256 len
        omega
      rw [hrec]
      show (v / 256) * 256 + v % 256 = v
      omega

/-- The value fits within the byte length int_to_bytes chooses. -/
lemma lt_pow_int_to_bytes_len (v : Nat) :
    v < 256 ^ (max 1 ((bitLength v + 7) / 8)) := by
  have h1 : v < 2 ^ bitLength v := lt_two_pow_bitLength v
  have h2 : bitLength v ≤ 8 * ((bitLength v + 7) / 8) := by omega
  have h3 : (8 : Nat) * ((bitLength v + 7) / 8) ≤
      8 * max 1 ((bitLength v + 7) / 8) := by
    have := le_max_right 1 ((bitLength v + 7) / 8)
    omega
  have h4 : (2 : Nat) ^ bitLength v ≤ 2 ^ (8 * max 1 ((bitLength v + 7) / 8)) :=
    Nat.pow_le_pow_right (by omega) (by omega)
  have h5 : (2 : Nat) ^ (8 * max 1 ((bitLength v + 7) / 8)) =
      256 ^ (max 1 ((bitLength v + 7) / 8)) := by
    rw [pow_mul]
    norm_num
  omega

/-- int.from_bytes inverts _int_to_bytes. -/
lemma fromBytesBE_int_to_bytes (v : Nat) :
    fromBytesBE (int_to_bytes v) = v :=
  fromBytesBE_bytesBE _ v (lt_pow_int_to_bytes_len v)

/-- The minimal big-endian encoding is injective. -/
lemma int_to_bytes_injective : Function.Injective int_to_bytes := by
  intro v w h
  have hv := fromBytesBE_int_to_bytes v
  have hw := fromBytesBE_int_to_bytes w
  rw [← hv, ← hw, h]

/-- Distinct values stay distinct after appending a common byte suffix. -/
lemma int_to_bytes_append_ne (v w : Nat) (R : List Nat) (hvw : v ≠ w) :
    int_to_bytes v ++ R ≠ int_to_bytes w ++ R := by
  intro h
  have hlen : (int_to_bytes v).length = (int_to_bytes w).length := by
    have hl := congrArg List.length h
    simp only [List.length_append] at hl
    omega
  exact hvw (int_to_bytes_injective (List.append_inj h hlen).1)

/-- Under collision-free blake2b and injective utf-8 encoding, the
fingerprint separates contexts for a fixed vector. -/
lemma compute_fingerprint_context_ne (H : HashModel)
    (hinj : Function.Injective H.blake2b32hex)
    (hencinj : Function.Injective H.encodeUtf8)
    (vec : Nat × Nat × Nat) (C1 C2 : String) (hne : C1 ≠ C2) :
    compute_fingerprint H vec C1 ≠ compute_fingerprint H vec C2 := by
  unfold compute_fingerprint
  intro h
  have h2 := hinj h
  simp only [List.append_assoc] at h2
  have h3 := List.append_cancel_left h2
  have h4 := List.append_cancel_left h3
  have h5 := List.append_cancel_left h4
  exact hne (hencinj h5)

/-- A capsule whose stored fingerprint disagrees with the recomputed one
never verifies. -/
lemma verify_attestation_false_of_fingerprint_ne (gp : GroupParams)
    (H : HashModel) (capsule : RichensCapsule) (challenge : Nat)
    (proof : RichensProof)
    (hfp : capsule.fingerprint ≠
      compute_fingerprint H capsule.vector capsule.context) :
    verify_attestation gp H capsule challenge proof = false := by
  unfold verify_attestation
  split
  · rfl
  · rfl

/-- C6: replacing only the context field of a minted capsule (vector,
anchor and fingerprint unchanged) makes verify_attestation return false
for every challenge and every proof produced from the original essence
and context, assuming the blake2b digest is collision free and utf-8
encoding is injective. -/
theorem C6_context_tamper_rejected (gp : GroupParams) (H : HashModel)
    (hinj : Function.Injective H.blake2b32hex)
    (hencinj : Function.Injective H.encodeUtf8)
    (E : List Nat) (C C2 : String) (hne : C2 ≠ C) (t : Nat) :
    verify_attestation gp H
      { mint_capsule gp H E C with context := C2 } t
      (respond_to_challenge gp H E t C) = false := by
  apply verify_attestation_false_of_fingerprint_ne
  show compute_fingerprint H (mint_capsule gp H E C).vector C ≠
    compute_fingerprint H (mint_capsule gp H E C).vector C2
  exact compute_fingerprint_context_ne H hinj hencinj _ C C2
    (fun hh => hne hh.symm)

/-! ### Injectivity of the toy hash model -/

/-- Decoding a unary run recovers the run length. -/
lemma unaryDecode_replicate (n : Nat) : ∀ rest acc,
    unaryDecode (List.replicate n 'a' ++ 'b' :: rest) acc =
      (acc + n) :: unaryDecode rest 0 := by
  induction n with
  | zero => intro rest acc; simp [unaryDecode]
  | succ n ih =>
      intro rest acc
      show unaryDecode ('a' :: (List.replicate n 'a' ++ 'b' :: rest)) acc = _
      simp only [unaryDecode]
      rw [if_neg (by decide), ih rest (acc + 1)]
      have hacc : acc + 1 + n = acc + (n + 1) := by omega
      rw [hacc]

/-- unaryDecode is a left inverse of unaryEncode. -/
lemma unaryDecode_unaryEncode : ∀ l, unaryDecode (unaryEncode l) 0 = l := by
  intro l
  induction l with
  | nil => rfl
  | cons n rest ih =>
      show unaryDecode (List.replicate n 'a' ++ 'b' :: unaryEncode rest) 0 =
        n :: rest
      rw [unaryDecode_replicate n (unaryEncode rest) 0, ih, Nat.zero_add]

/-- The toy digest map is injective (collision free). -/
lemma toyDigest_injective : Function.Injective toyDigest := by
  intro x y h
  have h2 : unaryEncode x = unaryEncode y := congrArg String.data h
  have hx := unaryDecode_unaryEncode x
  have hy := unaryDecode_unaryEncode y
  rw [← hx, ← hy, h2]

/-- The toy utf-8 stand-in is injective. -/
lemma toyUtf8_injective : Function.Injective toyUtf8 := by
  intro x y h
  have hchar : Function.Injective Char.toNat := fun c d hh =>
    Char.eq_of_val_eq (UInt32.eq_of_toBitVec_eq (BitVec.eq_of_toNat_eq hh))
  have hdata : x.data = y.data := List.map_injective_iff.mpr hchar h
  cases x
  cases y
  exact congrArg String.mk hdata

/-- C2 (amended): a proof produced for challenge A fails verification
against challenge B whenever A and B differ modulo Q, assuming the
blake2b parity digest is collision free; for A congruent to B modulo Q
the code accepts, because both operations depend on the challenge only
through its residue modulo Q. -/
theorem C2_cross_challenge_rejected (gp : GroupParams) (H : HashModel)
    (hinj : Function.Injective H.blake2b32hex)
    (E : List Nat) (C : String) (A B : Nat)
    (hAB : A % gp.Q ≠ B % gp.Q) :
    verify_attestation gp H (mint_capsule gp H E C) B
      (respond_to_challenge gp H E A C) = false := by
  simp only [verify_attestation, mint_capsule, respond_to_challenge,
    ne_eq, not_true_eq_false, if_false]
  split
  · rfl
  · rw [beq_eq_false_iff_ne]
    intro h
    have h2 := hinj h
    simp only [List.append_assoc] at h2
    exact int_to_bytes_append_ne (A % gp.Q) (B % gp.Q) _ hAB h2

set_option maxRecDepth 20000 in
/-- C2 counterexample: the challenges 1 and 12 = 1 + Q are different,
yet the proof generated for challenge 1 verifies against challenge 12
and the same capsule, so reuse across a different challenge does not
always fail. -/
theorem C2_counterexample :
    (1 : Nat) ≠ 12 ∧
    verify_attestation toyGP toyHash (mint_capsule toyGP toyHash [7] "ctx")
      12 (respond_to_challenge toyGP toyHash [7] 1 "ctx") = true := by
  constructor
  · decide
  · decide

/-! ### Hex round trip -/

lemma hexVal_hexDigitChar (k : Nat) (hk : k < 16) :
    hexVal (hexDigitChar k) = some k := by
  interval_cases k <;> decide

lemma hexValsOf_append (xs : List Char) : ∀ ys as bs,
    hexValsOf xs = some as → hexValsOf ys = some bs →
    hexValsOf (xs ++ ys) = some (as ++ bs) := by
  induction xs with
  | nil =>
      intro ys as bs hx hy
      simp only [hexValsOf] at hx
      cases hx
      simpa using hy
  | cons c rest ih =>
      intro ys as bs hx hy
      simp only [hexValsOf] at hx
      cases hv : hexVal c with
      | none => rw [hv] at hx; cases hx
      | some v =>
          rw [hv] at hx
          cases hr : hexValsOf rest with
          | none => rw [hr] at hx; cases hx
          | some vs =>
              rw [hr] at hx
              cases hx
              show hexValsOf (c :: (rest ++ ys)) = _
              simp only [hexValsOf, hv, ih ys vs bs hr hy]
              rfl

lemma hexValsOf_split (xs : List Char) : ∀ ys vs,
    hexValsOf (xs ++ ys) = some vs →
    ∃ as bs, hexValsOf xs = some as ∧ hexValsOf ys = some bs ∧
      vs = as ++ bs := by
  induction xs with
  | nil =>
      intro ys vs h
      exact ⟨[], vs, rfl, h, rfl⟩
  | cons c rest ih =>
      intro ys vs h
      simp only [List.cons_append, hexValsOf, List.append_eq] at h
      cases hv : hexVal c with
      | none => rw [hv] at h; cases h
      | some v =>
          rw [hv] at h
          cases hr : hexValsOf (rest ++ ys) with
          | none => rw [hr] at h; cases h
          | some ws =>
              rw [hr] at h
              cases h
              obtain ⟨as, bs, ha, hb, hw⟩ := ih ys ws hr
              refine ⟨v :: as, bs, ?_, hb, ?_⟩
              · simp only [hexValsOf, hv, ha]
              · rw [hw]; rfl

lemma foldl16_cons (acc d : Nat) (rest : List Nat) :
    foldl16 acc (d :: rest) = foldl16 (16 * acc + d) rest := rfl

lemma foldl16_append (acc : Nat) (xs ys : List Nat) :
    foldl16 acc (xs ++ ys) = foldl16 (foldl16 acc xs) ys := by
  unfold foldl16
  rw [List.foldl_append]

lemma foldl16_shift (ys : List Nat) : ∀ acc,
    foldl16 acc ys = acc * 16 ^ ys.length + foldl16 0 ys := by
  induction ys with
  | nil => intro acc; simp [foldl16]
  | cons d rest ih =>
      intro acc
      rw [foldl16_cons, foldl16_cons 0 d rest]
      rw [ih (16 * acc + d), ih (16 * 0 + d)]
      have hlen : (d :: rest).length = rest.length + 1 := rfl
      rw [hlen, pow_succ]
      ring

lemma hexValsOf_toHexCore (fuel : Nat) : ∀ n, n ≤ fuel →
    hexValsOf (toHexCore fuel n) = some (hexDigitsVals fuel n) := by
  induction fuel with
  | zero => intro n hn; interval_cases n; rfl
  | succ fuel ih =>
      intro n hn
      match n with
      | 0 => rfl
      | m + 1 =>
          show hexValsOf (toHexCore fuel ((m + 1) / 16) ++
            [hexDigitChar ((m + 1) % 16)]) = _
          have h1 := ih ((m + 1) / 16) (by omega)
          have h2 : hexValsOf [hexDigitChar ((m + 1) % 16)] =
              some [(m + 1) % 16] := by
            simp [hexValsOf, hexVal_hexDigitChar _ (Nat.mod_lt _ (by omega))]
          rw [hexValsOf_append _ _ _ _ h1 h2]
          rfl

lemma foldl16_hexDigitsVals (fuel : Nat) : ∀ n acc, n ≤ fuel →
    foldl16 acc (hexDigitsVals fuel n) =
      acc * 16 ^ (hexDigitsVals fuel n).length + n := by
  induction fuel with
  | zero => intro n acc hn; interval_cases n; simp [hexDigitsVals, foldl16]
  | succ fuel ih =>
      intro n acc hn
      match n with
      | 0 => simp [hexDigitsVals, foldl16]
      | m + 1 =>
          show foldl16 acc (hexDigitsVals fuel ((m + 1) / 16) ++
            [(m + 1) % 16]) = _
          rw [foldl16_append, ih ((m + 1) / 16) acc (by omega)]
          have hsing : ∀ X, foldl16 X [(m + 1) % 16] = 16 * X + (m + 1) % 16 :=
            fun X => rfl
          rw [hsing]
          have hlen : (hexDigitsVals (fuel + 1) (m + 1)).length =
              (hexDigitsVals fuel ((m + 1) / 16)).length + 1 := by
            show (hexDigitsVals fuel ((m + 1) / 16) ++ [(m + 1) % 16]).length = _
            simp
          rw [hlen, pow_succ]
          have hdm : 16 * ((m + 1) / 16) + (m + 1) % 16 = m + 1 :=
            Nat.div_add_mod (m + 1) 16
          set L := (hexDigitsVals fuel ((m + 1) / 16)).length
          set K := (16 : Nat) ^ L
          ring_nf
          omega

lemma toHexCore_ne_nil (fuel n : Nat) : toHexCore (fuel + 1) (n + 1) ≠ [] := by
  show toHexCore fuel ((n + 1) / 16) ++ [hexDigitChar ((n + 1) % 16)] ≠ []
  simp

lemma hexToNat_natToHex (v : Nat) : hexToNat (natToHex v) = some v := by
  match v with
  | 0 => decide
  | n + 1 =>
      have hne : toHexCore (n + 1) (n + 1) ≠ [] := toHexCore_ne_nil n n
      have hdig : natToHexDigits (n + 1) = toHexCore (n + 1) (n + 1) := by
        simp [natToHexDigits]
      show (if (natToHexDigits (n + 1)).isEmpty then none
        else (hexValsOf (natToHexDigits (n + 1))).map (foldl16 0)) = some (n + 1)
      rw [hdig]
      rw [if_neg (by simp [List.isEmpty_eq_true, hne])]
      rw [hexValsOf_toHexCore (n + 1) (n + 1) le_rfl]
      show some (foldl16 0 (hexDigitsVals (n + 1) (n + 1))) = some (n + 1)
      rw [foldl16_hexDigitsVals (n + 1) (n + 1) 0 le_rfl]
      simp

/-- C10: a minted capsule already satisfies the integrity invariant (its
anchor and fingerprint equal the values recomputed from its vector and
context), so serializing it with to_dict and deserializing with
from_dict never raises and returns the original capsule. -/
theorem C10_mint_to_dict_roundtrip (gp : GroupParams) (H : HashModel)
    (E : List Nat) (C : String) :
    (mint_capsule gp H E C).anchor =
      derive_anchor gp (mint_capsule gp H E C).vector ∧
    (mint_capsule gp H E C).fingerprint =
      compute_fingerprint H (mint_capsule gp H E C).vector
        (mint_capsule gp H E C).context ∧
    RichensCapsule.from_dict gp H (mint_capsule gp H E C).to_dict =
      Except.ok (mint_capsule gp H E C) := by
  refine ⟨rfl, rfl, ?_⟩
  show RichensCapsule.from_dict gp H
    { vector := [natToHex (mint_capsule gp H E C).vector.1,
        natToHex (mint_capsule gp H E C).vector.2.1,
        natToHex (mint_capsule gp H E C).vector.2.2]
      context := (mint_capsule gp H E C).context
      anchor := natToHex (mint_capsule gp H E C).anchor
      fingerprint := (mint_capsule gp H E C).fingerprint } = _
  unfold RichensCapsule.from_dict
  simp only [hexToNat_natToHex]
  simp only [Prod.mk.eta, ne_eq]
  have h1 : ¬ ¬ ((mint_capsule gp H E C).anchor =
      derive_anchor gp (mint_capsule gp H E C).vector) := not_not_intro rfl
  have h2 : ¬ ¬ ((mint_capsule gp H E C).fingerprint =
      compute_fingerprint H (mint_capsule gp H E C).vector
        (mint_capsule gp H E C).context) := not_not_intro rfl
  rw [if_neg h1, if_neg h2]

/-! ### Capsule deserialization integrity -/

lemma natToHexDigits_parses (w : Nat) :
    ∃ vals, hexValsOf (natToHexDigits w) = some vals ∧ foldl16 0 vals = w := by
  match w with
  | 0 => exact ⟨[0], by decide, by decide⟩
  | n + 1 =>
      refine ⟨hexDigitsVals (n + 1) (n + 1), ?_, ?_⟩
      · have hdig : natToHexDigits (n + 1) = toHexCore (n + 1) (n + 1) := by
          simp [natToHexDigits]
        rw [hdig]
        exact hexValsOf_toHexCore (n + 1) (n + 1) le_rfl
      · rw [foldl16_hexDigitsVals (n + 1) (n + 1) 0 le_rfl]
        simp

lemma foldl16_middle (pre suf : List Nat) (c : Nat) :
    foldl16 0 (pre ++ c :: suf) =
      (16 * foldl16 0 pre + c) * 16 ^ suf.length + foldl16 0 suf := by
  rw [foldl16_append, foldl16_cons, foldl16_shift suf (16 * foldl16 0 pre + c)]

lemma foldl16_middle_ne (pre suf : List Nat) (c d : Nat) (hcd : c ≠ d) :
    foldl16 0 (pre ++ c :: suf) ≠ foldl16 0 (pre ++ d :: suf) := by
  rw [foldl16_middle, foldl16_middle]
  have hK : 0 < (16 : Nat) ^ suf.length := Nat.pos_pow_of_pos _ (by omega)
  intro h
  have h2 := Nat.add_right_cancel h
  have h3 := Nat.eq_of_mul_eq_mul_right hK h2
  omega

lemma hexToNat_altered (w : Nat) (pre suf : List Char) (c dch : Char)
    (cv dv : Nat) (hdig : natToHexDigits w = pre ++ c :: suf)
    (hc : hexVal c = some cv) (hd : hexVal dch = some dv) (hne : cv ≠ dv) :
    ∃ v2, hexToNat (String.mk ('0' :: 'x' :: (pre ++ dch :: suf))) = some v2 ∧
      v2 ≠ w := by
  obtain ⟨vals, hvals, hfold⟩ := natToHexDigits_parses w
  rw [hdig] at hvals
  obtain ⟨pa, cb, hpa, hcb, hv⟩ := hexValsOf_split pre (c :: suf) vals hvals
  have hsb : ∃ sb, hexValsOf suf = some sb ∧ cb = cv :: sb := by
    simp only [hexValsOf, hc] at hcb
    cases hs : hexValsOf suf with
    | none => rw [hs] at hcb; cases hcb
    | some sb => rw [hs] at hcb; cases hcb; exact ⟨sb, rfl, rfl⟩
  obtain ⟨sb, hs, hcb2⟩ := hsb
  have halt : hexValsOf (pre ++ dch :: suf) = some (pa ++ dv :: sb) := by
    apply hexValsOf_append pre (dch :: suf) pa (dv :: sb) hpa
    simp only [hexValsOf, hd, hs]
  refine ⟨foldl16 0 (pa ++ dv :: sb), ?_, ?_⟩
  · show (if (pre ++ dch :: suf).isEmpty = true then none
      else (hexValsOf (pre ++ dch :: suf)).map (foldl16 0)) = _
    rw [if_neg (by cases pre <;> simp)]
    rw [halt]
    rfl
  · rw [hv, hcb2] at hfold
    intro h
    exact foldl16_middle_ne pa sb dv cv (fun hh => hne hh.symm)
      (h.trans hfold.symm)

lemma from_dict_isOk_iff (gp : GroupParams) (H : HashModel)
    (d : CapsuleDict) (s0 s1 s2 : String) (v0 v1 v2 A : Nat)
    (hv : d.vector = [s0, s1, s2])
    (h0 : hexToNat s0 = some v0) (h1 : hexToNat s1 = some v1)
    (h2 : hexToNat s2 = some v2) (hA : hexToNat d.anchor = some A) :
    ((RichensCapsule.from_dict gp H d).isOk = false ↔
      A ≠ derive_anchor gp (v0, v1, v2) ∨
      d.fingerprint ≠ compute_fingerprint H (v0, v1, v2) d.context) := by
  unfold RichensCapsule.from_dict
  rw [hv]
  simp only [h0, h1, h2, hA, ne_eq]
  by_cases ha : A = derive_anchor gp (v0, v1, v2)
  · rw [if_neg (not_not_intro ha)]
    by_cases hf : d.fingerprint = compute_fingerprint H (v0, v1, v2) d.context
    · rw [if_neg (not_not_intro hf)]
      simp [Except.isOk, Except.toBool, ha, hf]
    · rw [if_pos hf]
      simp [Except.isOk, Except.toBool, ha, hf]
  · rw [if_pos ha]
    simp [Except.isOk, Except.toBool, ha]

/-- C5: for a structurally well-formed capsule dict (three parseable hex
vector entries and a parseable hex anchor), from_dict raises exactly when
the anchor recomputed from the supplied vector, or the fingerprint
recomputed from the supplied vector and context, differs from the
corresponding supplied field; and altering any single hex digit of the
serialized vector of an integrity-valid capsule makes deserialization
raise, assuming the blake2b digest is collision free.  The check is part
of construction, so it happens before the capsule is used. -/
theorem C5_from_dict_integrity (gp : GroupParams) (H : HashModel)
    (hinj : Function.Injective H.blake2b32hex) :
    (∀ (d : CapsuleDict) (s0 s1 s2 : String) (v0 v1 v2 A : Nat),
      d.vector = [s0, s1, s2] →
      hexToNat s0 = some v0 → hexToNat s1 = some v1 →
      hexToNat s2 = some v2 → hexToNat d.anchor = some A →
      ((RichensCapsule.from_dict gp H d).isOk = false ↔
        A ≠ derive_anchor gp (v0, v1, v2) ∨
        d.fingerprint ≠ compute_fingerprint H (v0, v1, v2) d.context)) ∧
    (∀ caps : RichensCapsule,
      caps.anchor = derive_anchor gp caps.vector →
      caps.fingerprint = compute_fingerprint H caps.vector caps.context →
      ∀ (i : Nat) (pre suf : List Char) (c dch : Char) (cv dv : Nat),
        i < 3 →
        natToHexDigits (vectorComponent caps i) = pre ++ c :: suf →
        hexVal c = some cv → hexVal dch = some dv → cv ≠ dv →
        (RichensCapsule.from_dict gp H (setVectorEntry caps.to_dict i
          (String.mk ('0' :: 'x' :: (pre ++ dch :: suf))))).isOk = false) := by
  constructor
  · intro d s0 s1 s2 v0 v1 v2 A hv h0 h1 h2 hA
    exact from_dict_isOk_iff gp H d s0 s1 s2 v0 v1 v2 A hv h0 h1 h2 hA
  · intro caps hanch hfp i pre suf c dch cv dv hi hdig hc hd hne
    obtain ⟨v2x, hparse, hvne⟩ :=
      hexToNat_altered (vectorComponent caps i) pre suf c dch cv dv
        hdig hc hd hne
    interval_cases i
    · -- component 0 altered
      have hiff := from_dict_isOk_iff gp H
        (setVectorEntry caps.to_dict 0
          (String.mk ('0' :: 'x' :: (pre ++ dch :: suf))))
        (String.mk ('0' :: 'x' :: (pre ++ dch :: suf)))
        (natToHex caps.vector.2.1) (natToHex caps.vector.2.2)
        v2x caps.vector.2.1 caps.vector.2.2 caps.anchor
        rfl hparse (hexToNat_natToHex _) (hexToNat_natToHex _)
        (hexToNat_natToHex _)
      rw [hiff]
      right
      show caps.fingerprint ≠ _
      rw [hfp]
      intro h
      have hb := hinj h
      simp only [List.append_assoc] at hb
      exact int_to_bytes_append_ne caps.vector.1 v2x _
        (fun hh => hvne hh.symm) hb
    · -- component 1 altered
      have hiff := from_dict_isOk_iff gp H
        (setVectorEntry caps.to_dict 1
          (String.mk ('0' :: 'x' :: (pre ++ dch :: suf))))
        (natToHex caps.vector.1)
        (String.mk ('0' :: 'x' :: (pre ++ dch :: suf)))
        (natToHex caps.vector.2.2)
        caps.vector.1 v2x caps.vector.2.2 caps.anchor
        rfl (hexToNat_natToHex _) hparse (hexToNat_natToHex _)
        (hexToNat_natToHex _)
      rw [hiff]
      right
      show caps.fingerprint ≠ _
      rw [hfp]
      intro h
      have hb := hinj h
      simp only [List.append_assoc] at hb
      have hb2 := List.append_cancel_left hb
      exact int_to_bytes_append_ne caps.vector.2.1 v2x _
        (fun hh => hvne hh.symm) hb2
    · -- component 2 altered
      have hiff := from_dict_isOk_iff gp H
        (setVectorEntry caps.to_dict 2
          (String.mk ('0' :: 'x' :: (pre ++ dch :: suf))))
        (natToHex caps.vector.1) (natToHex caps.vector.2.1)
        (String.mk ('0' :: 'x' :: (pre ++ dch :: suf)))
        caps.vector.1 caps.vector.2.1 v2x caps.anchor
        rfl (hexToNat_natToHex _) (hexToNat_natToHex _) hparse
        (hexToNat_natToHex _)
      rw [hiff]
      right
      show caps.fingerprint ≠ _
      rw [hfp]
      intro h
      have hb := hinj h
      simp only [List.append_assoc] at hb
      have hb2 := List.append_cancel_left (List.append_cancel_left hb)
      exact int_to_bytes_append_ne caps.vector.2.2 v2x _
        (fun hh => hvne hh.symm) hb2

/-! ### Concrete witnesses -/

/-- Concrete instance of the C1 round trip on the toy model. -/
theorem C1_round_trip_witness :
    (0 < 3 ∧ 3 < toyGP.Q ∧ ([7] : List Nat) ≠ []) ∧
    verify_attestation toyGP toyHash (mint_capsule toyGP toyHash [7] "ctx")
      3 (respond_to_challenge toyGP toyHash [7] 3 "ctx") = true :=
  ⟨⟨by decide, by decide, by decide⟩,
    C1_round_trip toyGP toyHash
      ⟨by decide, by decide, by decide, by decide, by decide⟩
      [7] (by decide) "ctx" 3 (by decide) (by decide)⟩

/-- Concrete instance of the amended C2 on the toy model. -/
theorem C2_cross_challenge_witness :
    (1 % toyGP.Q ≠ 2 % toyGP.Q) ∧
    verify_attestation toyGP toyHash (mint_capsule toyGP toyHash [7] "ctx")
      2 (respond_to_challenge toyGP toyHash [7] 1 "ctx") = false :=
  ⟨by decide, C2_cross_challenge_rejected toyGP toyHash toyDigest_injective
    [7] "ctx" 1 2 (by decide)⟩

/-- Concrete instance of the C3 verification equation on the toy model. -/
theorem C3_schnorr_verify_witness :
    (0 < 5 ∧ 5 < toyGP.P) ∧
    (SchnorrVerifier.verify toyGP ⟨8⟩ 5 ⟨2, 6⟩ = true ↔
      toyGP.G ^ 6 % toyGP.P = 5 * 8 ^ 2 % toyGP.P % toyGP.P) :=
  ⟨⟨by decide, by decide⟩,
    C3_schnorr_verify_iff toyGP ⟨8⟩ 5 ⟨2, 6⟩ (by decide) (by decide)⟩

/-- Concrete instance of the C4 round loop on the toy model. -/
theorem C4_authenticate_rounds_witness :
    (0 < 3 ∧ 3 < toyGP.Q ∧ 8 = powMod toyGP.G 3 toyGP.P) ∧
    (∃ results,
      authenticate_rounds toyGP 3 8 [(1, 0), (2, 3)] =
        Except.ok (results, true) ∧ ∀ r ∈ results, r.1 = true) :=
  ⟨⟨by decide, by decide, by decide⟩,
    (C4_authenticate_rounds toyGP
      ⟨by decide, by decide, by decide, by decide, by decide⟩
      3 8 (by decide) (by decide) (by decide) [(1, 0), (2, 3)]
      (by decide)).1⟩

set_option maxRecDepth 20000 in
/-- Concrete instance of the C5 digit-corruption rejection on the toy
model: the first vector component of the minted capsule serializes to
0x6, and corrupting the digit 6 to 1 makes deserialization raise. -/
theorem C5_from_dict_integrity_witness :
    (RichensCapsule.from_dict toyGP toyHash (setVectorEntry
      (mint_capsule toyGP toyHash [7] "ctx").to_dict 0
      (String.mk ['0', 'x', '1']))).isOk = false :=
  (C5_from_dict_integrity toyGP toyHash toyDigest_injective).2
    (mint_capsule toyGP toyHash [7] "ctx") rfl rfl 0 [] [] '6' '1' 6 1
    (by decide) (by decide) (by decide) (by decide) (by decide)

/-- Concrete instance of the C6 context-tamper rejection on the toy
model. -/
theorem C6_context_tamper_witness :
    ("tampered" ≠ "ctx") ∧
    verify_attestation toyGP toyHash
      { mint_capsule toyGP toyHash [7] "ctx" with context := "tampered" }
      3 (respond_to_challenge toyGP toyHash [7] 3 "ctx") = false :=
  ⟨by decide, C6_context_tamper_rejected toyGP toyHash toyDigest_injective
    toyUtf8_injective [7] "ctx" "tampered" (by decide) 3⟩

/-- Concrete instance of the C7 challenge range on the toy model. -/
theorem C7_issue_challenge_witness :
    issue_challenge toyGP 192 [0, 5] = some 5 ∧ (0 < 5 ∧ 5 < toyGP.Q) :=
  ⟨by decide, (C7_issue_challenge_range toyGP 192 [0, 5] 5 (by decide)).1⟩

set_option maxRecDepth 20000 in
/-- Concrete instance of the C9 congruence on the toy model: challenges
1 and 12 agree modulo Q = 11 and give identical proofs and outcomes. -/
theorem C9_challenge_mod_Q_witness :
    (1 % toyGP.Q = 12 % toyGP.Q) ∧
    respond_to_challenge toyGP toyHash [7] 1 "ctx" =
      respond_to_challenge toyGP toyHash [7] 12 "ctx" ∧
    verify_attestation toyGP toyHash (mint_capsule toyGP toyHash [7] "ctx")
      1 (respond_to_challenge toyGP toyHash [7] 1 "ctx") =
    verify_attestation toyGP toyHash (mint_capsule toyGP toyHash [7] "ctx")
      12 (respond_to_challenge toyGP toyHash [7] 1 "ctx") :=
  ⟨by decide,
    (C9_challenge_mod_Q toyGP toyHash 1 12 (by decide)).1 [7] "ctx",
    (C9_challenge_mod_Q toyGP toyHash 1 12 (by decide)).2 _ _⟩
